import Mathlib

set_option maxRecDepth 16384

/-!
Verification of the tree-walking merge tool.

The repository contains two Python scripts, `merge_code.py` (content-only
variant) and `mergecode.py` (structure + content variant).  Both walk a
directory tree rooted at the current working directory with `os.walk`,
prune subdirectory names listed in `IGNORE_DIRS` before descending, select
files whose `os.path.splitext` extension lies in `ALLOWED_EXTENSIONS`, and
write each selected file as a header block followed by its contents into
`FullProjectSource.txt`.

The development below embeds the two scripts shallowly: a directory tree
is a `Dir` value (name, subdirectories, files), a file either carries its
decoded contents or the error raised when opening or reading it, and the
walk plus all string formatting are executable Lean functions mirroring
the Python line by line.  Output written to the merged document is
modelled as the returned `String`; per-file diagnostics printed to stdout
are modelled as the returned `List String`.
-/

/-- Suffix of a character list starting at its last `'.'`, if any. -/
def extAux : List Char → Option (List Char)
  | [] => none
  | c :: cs =>
    match extAux cs with
    | some e => some e
    | none => if c = '.' then some (c :: cs) else none

/-- Embeds Python `os.path.splitext` (POSIX): the extension is the suffix
starting at the last `'.'` of the final path component, except that a run
of dots at the start of that component never begins an extension (so
`".swift"` and `"..swift"` have empty extensions).  Returns
`(root, extension)`. -/
def splitext (p : String) : String × String :=
  let base := (p.data.reverse.takeWhile (fun c => c ≠ '/')).reverse
  let e := match extAux (base.dropWhile (fun c => c = '.')) with
    | some e => e
    | none => []
  (String.mk (p.data.take (p.data.length - e.length)), String.mk e)

/-- Embeds Python `os.path.relpath(p, root)` in the one situation the
scripts exercise: `p` is built by `os.path.join` from `root` and a
nonempty relative part, so the result is `p` with the `root` prefix and
the following separator removed. -/
def relpath (p root : String) : String :=
  if p = root then "." else String.mk (p.data.drop (root.data.length + 1))

/-- Embeds Python `os.path.basename` (POSIX): the part after the last
`'/'`. -/
def pyBasename (p : String) : String :=
  String.mk ((p.data.reverse.takeWhile (fun c => c ≠ '/')).reverse)

/-- Embeds Python `s.count(os.sep)` on POSIX: the number of `'/'`
characters. -/
def pyCountSep (s : String) : Nat := s.data.count '/'

/-- Worker for `pyEraseAll`: removes left-to-right non-overlapping
occurrences of `pat`.  One character of budget is consumed per step, so a
budget of the subject's length always suffices; the budget only keeps the
recursion structural and never changes the result. -/
def eraseAllFuel (pat : List Char) : Nat → List Char → List Char
  | 0, _ => []
  | _ + 1, [] => []
  | fuel + 1, c :: cs =>
    if pat ≠ [] ∧ pat.isPrefixOf (c :: cs) then eraseAllFuel pat fuel ((c :: cs).drop pat.length)
    else c :: eraseAllFuel pat fuel cs

/-- Embeds Python `s.replace(pat, '')`: deletes the leftmost
non-overlapping occurrences of `pat` in `s`, scanning left to right. -/
def pyEraseAll (pat s : String) : String :=
  String.mk (eraseAllFuel pat.data s.data.length s.data)

/-- Whether `pat` occurs as a contiguous sublist of `s`. -/
def occursIn (pat : List Char) : List Char → Bool
  | [] => pat.isPrefixOf []
  | c :: cs => pat.isPrefixOf (c :: cs) || occursIn pat cs

/-- A block of `n` spaces, as produced by Python `' ' * n`. -/
def spaces (n : Nat) : String := String.mk (List.replicate n ' ')

/-- A file in the modelled tree: its name, and either its decoded
contents (`Except.ok`) or the error message raised when opening or
reading it (`Except.error`). -/
structure FileEntry where
  name : String
  data : Except String String

mutual
/-- A directory: base name, subdirectories in listing order, files in
listing order. -/
inductive Dir where
  | node (name : String) (subdirs : DirList) (files : List FileEntry) : Dir
/-- List of sibling directories (mutual with `Dir` so that all recursion
over trees is structural). -/
inductive DirList where
  | nil : DirList
  | cons (t : Dir) (ts : DirList) : DirList
end

def Dir.name : Dir → String
  | .node n _ _ => n

def Dir.files : Dir → List FileEntry
  | .node _ _ fs => fs

def DirList.ofList : List Dir → DirList
  | [] => .nil
  | t :: ts => .cons t (DirList.ofList ts)

/-- `IGNORE_DIRS` — identical in `merge_code.py` and `mergecode.py`. -/
def IGNORE_DIRS : List String :=
  ["Pods", ".git", "DerivedData", "Assets.xcassets", "Preview Content", "fastlane", "build"]

/-- The separator line `"=" * 50` used around every `FILE:` header. -/
def separator : String := String.mk (List.replicate 50 '=')

/-- Emission for one selected file, shared shape of the two scripts'
inner loop bodies.  `pre` is what the script writes before the first
separator (`"\n"` in `merge_code.py`, `""` in `mergecode.py`) and `post`
what it writes after the contents (`"\n"` resp. `"\n\n"`).  The header is
written before the `try:`, so a file whose read fails still contributes
its header; the diagnostic `print` is collected in the second component. -/
def emitFile (pre post root dirpath name : String) (data : Except String String) : String × List String :=
  let file_path := dirpath ++ "/" ++ name
  let relative_path := relpath file_path root
  (pre ++ separator ++ "\n" ++ "FILE: " ++ relative_path ++ "\n" ++ separator ++ "\n\n" ++
     (match data with | .ok c => c ++ post | .error _ => ""),
   match data with | .ok _ => [] | .error e => ["Could not read " ++ relative_path ++ ": " ++ e])

/-- The `for filename in filenames:` loop: files whose `splitext`
extension is in `allow` are emitted, the rest are skipped. -/
def emitFiles (allow : List String) (pre post root dirpath : String) : List FileEntry → String × List String
  | [] => ("", [])
  | f :: fs =>
    let rest := emitFiles allow pre post root dirpath fs
    if (splitext f.name).2 ∈ allow then
      let e := emitFile pre post root dirpath f.name f.data
      (e.1 ++ rest.1, e.2 ++ rest.2)
    else rest

mutual
/-- The `os.walk` content loop of both scripts: the current directory's
files are processed first, then the subdirectories in order, with names
in `IGNORE_DIRS` pruned before descent (`dirnames[:] = [d for d in
dirnames if d not in IGNORE_DIRS]`). -/
def walkDir (allow : List String) (pre post root dirpath : String) : Dir → String × List String
  | .node _ subs files =>
    let fo := emitFiles allow pre post root dirpath files
    let so := walkDirs allow pre post root dirpath subs
    (fo.1 ++ so.1, fo.2 ++ so.2)
def walkDirs (allow : List String) (pre post root dirpath : String) : DirList → String × List String
  | .nil => ("", [])
  | .cons s ss =>
    if s.name ∈ IGNORE_DIRS then walkDirs allow pre post root dirpath ss
    else
      let a := walkDir allow pre post root (dirpath ++ "/" ++ s.name) s
      let b := walkDirs allow pre post root dirpath ss
      (a.1 ++ b.1, a.2 ++ b.2)
end

/-- The file-listing loop of `write_tree_structure`: one indented line
per file with an allowed extension. -/
def structFiles (allow : List String) (subindent : String) : List FileEntry → String
  | [] => ""
  | f :: fs =>
    (if (splitext f.name).2 ∈ allow then subindent ++ f.name ++ "\n" else "") ++
      structFiles allow subindent fs

mutual
/-- The `os.walk` loop of `write_tree_structure`: per visited directory,
an indentation of `4 * level` spaces where
`level = root.replace(startpath, '').count(os.sep)`, the base name with a
trailing `/`, then the allowed files one level deeper, then the pruned
subdirectories. -/
def structDir (allow : List String) (startpath dirpath : String) : Dir → String
  | .node _ subs files =>
    let level := pyCountSep (pyEraseAll startpath dirpath)
    let indent := spaces (4 * level)
    let subindent := spaces (4 * (level + 1))
    indent ++ pyBasename dirpath ++ "/\n" ++ structFiles allow subindent files ++
      structDirs allow startpath dirpath subs
def structDirs (allow : List String) (startpath dirpath : String) : DirList → String
  | .nil => ""
  | .cons s ss =>
    (if s.name ∈ IGNORE_DIRS then "" else structDir allow startpath (dirpath ++ "/" ++ s.name) s) ++
      structDirs allow startpath dirpath ss
end

namespace merge_code

/-- `ALLOWED_EXTENSIONS` of `merge_code.py`. -/
def ALLOWED_EXTENSIONS : List String := [".swift", ".h", ".m", ".c", ".cpp"]

/-- `OUTPUT_FILE` of `merge_code.py`. -/
def OUTPUT_FILE : String := "FullProjectSource.txt"

/-- `merge_files` of `merge_code.py`: walks the tree rooted at the
working directory `root_dir` and returns the text written to
`OUTPUT_FILE` together with the diagnostics printed for unreadable
files.  Each selected file is written as
`"\n" ++ separator ++ "\nFILE: rel\n" ++ separator ++ "\n\n"` followed by
its contents and `"\n"`. -/
def merge_files (root_dir : String) (t : Dir) : String × List String :=
  walkDir ALLOWED_EXTENSIONS "\n" "\n" root_dir root_dir t

end merge_code

namespace mergecode

/-- `ALLOWED_EXTENSIONS` of `mergecode.py`. -/
def ALLOWED_EXTENSIONS : List String := [".swift", ".cpp", ".xcprivacy", ".plist"]

/-- `OUTPUT_FILE` of `mergecode.py`. -/
def OUTPUT_FILE : String := "FullProjectSource.txt"

/-- `write_tree_structure` of `mergecode.py`. -/
def write_tree_structure (startpath : String) (t : Dir) : String :=
  "PROJECT STRUCTURE:\n" ++ "==================\n" ++
    structDir ALLOWED_EXTENSIONS startpath startpath t ++ "\n\n"

/-- `merge_files` of `mergecode.py`: the structure section followed by
the content pass.  Each selected file is written as
`separator ++ "\nFILE: rel\n" ++ separator ++ "\n\n"` followed by its
contents and `"\n\n"`. -/
def merge_files (root_dir : String) (t : Dir) : String × List String :=
  let tree_part := write_tree_structure root_dir t
  let content := walkDir ALLOWED_EXTENSIONS "" "\n\n" root_dir root_dir t
  (tree_part ++ content.1, content.2)

end mergecode

/-! Specification-side functions used to state properties of the
embedding: flattenings of the tree into lists of relative paths, and the
expected shape of one output block. -/

/-- Concatenation of a list of strings. -/
def strConcat : List String → String
  | [] => ""
  | s :: ss => s ++ strConcat ss

/-- The relative part of a path below the root: `"/c1/c2/.../cn"`. -/
def relStr : List String → String
  | [] => ""
  | c :: cs => "/" ++ c ++ relStr cs

/-- Relative path components joined with `"/"` and no leading
separator. -/
def relJoin : List String → String
  | [] => ""
  | [x] => x
  | x :: y :: ys => x ++ "/" ++ relJoin (y :: ys)

/-- The output block one file contributes: header lines with the
root-relative path, then the contents followed by `post` for a readable
file and nothing for an unreadable one. -/
def blockFor (pre post : String) (dirs : List String) (f : FileEntry) : String :=
  pre ++ separator ++ "\n" ++ "FILE: " ++ relJoin (dirs ++ [f.name]) ++ "\n" ++ separator ++ "\n\n" ++
    (match f.data with | .ok c => c ++ post | .error _ => "")

/-- The diagnostic one file contributes: none for a readable file, the
`Could not read` line for an unreadable one. -/
def diagFor (dirs : List String) (f : FileEntry) : Option String :=
  match f.data with
  | .error e => some ("Could not read " ++ relJoin (dirs ++ [f.name]) ++ ": " ++ e)
  | .ok _ => none

mutual
/-- Files selected by the pruned walk, paired with the components of
their containing directory relative to the root, in emission order. -/
def includedDir (allow : List String) : Dir → List (List String × FileEntry)
  | .node _ subs files =>
    (files.filter fun f => (splitext f.name).2 ∈ allow).map (fun f => ([], f)) ++
      includedDirs allow subs
def includedDirs (allow : List String) : DirList → List (List String × FileEntry)
  | .nil => []
  | .cons s ss =>
    (if s.name ∈ IGNORE_DIRS then []
     else (includedDir allow s).map fun pr => (s.name :: pr.1, pr.2)) ++
      includedDirs allow ss
end

mutual
/-- All files of the tree with their containing directory's relative
components, with no pruning and no extension filtering. -/
def allFilesDir : Dir → List (List String × FileEntry)
  | .node _ subs files => files.map (fun f => ([], f)) ++ allFilesDirs subs
def allFilesDirs : DirList → List (List String × FileEntry)
  | .nil => []
  | .cons s ss => (allFilesDir s).map (fun pr => (s.name :: pr.1, pr.2)) ++ allFilesDirs ss
end

mutual
/-- Directories visited by the pruned walk, as relative component lists
paired with the subtree, in visit order; the root is always first. -/
def visitedDir : Dir → List (List String × Dir)
  | .node n subs files => ([], .node n subs files) :: visitedDirs subs
def visitedDirs : DirList → List (List String × Dir)
  | .nil => []
  | .cons s ss =>
    (if s.name ∈ IGNORE_DIRS then []
     else (visitedDir s).map fun pr => (s.name :: pr.1, pr.2)) ++
      visitedDirs ss
end

mutual
/-- All directories of the tree as relative component lists, with no
pruning. -/
def allDirsDir : Dir → List (List String)
  | .node _ subs _ => [] :: allDirsDirs subs
def allDirsDirs : DirList → List (List String)
  | .nil => []
  | .cons s ss => (allDirsDir s).map (fun l => s.name :: l) ++ allDirsDirs ss
end

mutual
/-- The tree with every ignored subdirectory removed and every file of a
non-allowed extension removed — exactly what the claims call the
excluded files and directories. -/
def cleanDir (allow : List String) : Dir → Dir
  | .node n subs files =>
    .node n (cleanDirs allow subs) (files.filter fun f => (splitext f.name).2 ∈ allow)
def cleanDirs (allow : List String) : DirList → DirList
  | .nil => .nil
  | .cons s ss =>
    if s.name ∈ IGNORE_DIRS then cleanDirs allow ss
    else .cons (cleanDir allow s) (cleanDirs allow ss)
end

/-- The structure-section lines one visited directory contributes, with
the level exactly as the script computes it. -/
def dirLines (allow : List String) (root : String) (l : List String) (files : List FileEntry) : String :=
  let dirpath := root ++ relStr l
  let level := pyCountSep (pyEraseAll root dirpath)
  spaces (4 * level) ++ pyBasename dirpath ++ "/\n" ++
    structFiles allow (spaces (4 * (level + 1))) files

/-- The extension rule as the specification words it: the substring from
the last `'.'` in the filename to the end, including the dot, and empty
when there is no dot. -/
def extLastDotSpec (p : String) : String :=
  match extAux p.data with
  | some e => String.mk e
  | none => ""

/-- Stripping the root prefix from a path, as the specification words
the depth computation. -/
def stripRootSpec (root p : String) : String :=
  String.mk (p.data.drop root.data.length)

/-- Selected files of `merge_code.py` with their relative directory
components. -/
def merge_code.included (t : Dir) : List (List String × FileEntry) :=
  includedDir merge_code.ALLOWED_EXTENSIONS t

/-- Selected files of `mergecode.py` with their relative directory
components. -/
def mergecode.included (t : Dir) : List (List String × FileEntry) :=
  includedDir mergecode.ALLOWED_EXTENSIONS t

/-- The scenario tree of the specification: `src/main.swift` with
contents `"A"`, `Pods/Lib.swift` with contents `"B"`, `build/out.h` with
contents `"C"`. -/
def scenDir : Dir :=
  .node "proj" (DirList.ofList
    [ .node "src" .nil [⟨"main.swift", .ok "A"⟩],
      .node "Pods" .nil [⟨"Lib.swift", .ok "B"⟩],
      .node "build" .nil [⟨"out.h", .ok "C"⟩] ]) []

/-- A root holding a single unreadable file `bad.swift`. -/
def c3dir : Dir := .node "r" .nil [⟨"bad.swift", .error "Permission denied"⟩]

/-- A root holding a single file named exactly `.swift`. -/
def c4dir : Dir := .node "r" .nil [⟨".swift", .ok "A"⟩]

/-- A tree whose nested directory path `/r/x/r` contains the root path
`/r` a second time. -/
def c6dir : Dir :=
  .node "r" (DirList.ofList [ .node "x" (DirList.ofList [ .node "r" .nil [] ]) [] ]) []

/-- A root directory itself named `build` holding `a.swift`. -/
def c10root : Dir := .node "build" .nil [⟨"a.swift", .ok "A"⟩]

/-- A root holding the same `build` directory as a subdirectory. -/
def c10nested : Dir :=
  .node "r" (DirList.ofList [ .node "build" .nil [⟨"a.swift", .ok "A"⟩] ]) []

/-! Helper lemmas about the path-string functions. -/

/-- Characters of a string; `String.data` in list form for reasoning. -/
theorem str_data_append (a b : String) : (a ++ b).data = a.data ++ b.data := by
  cases a; cases b; rfl

theorem str_ext {a b : String} (h : a.data = b.data) : a = b := by
  cases a; cases b; exact congrArg String.mk h

theorem str_mk_data (s : String) : String.mk s.data = s := by
  cases s; rfl

theorem str_append_assoc (a b c : String) : a ++ b ++ c = a ++ (b ++ c) := by
  apply str_ext; simp [str_data_append]

theorem str_append_empty (a : String) : a ++ "" = a := by
  apply str_ext; simp [str_data_append]

theorem str_empty_append (a : String) : "" ++ a = a := by
  apply str_ext; simp [str_data_append]

theorem relStr_snoc (l : List String) (x : String) :
    relStr (l ++ [x]) = relStr l ++ "/" ++ x := by
  induction l with
  | nil => apply str_ext; simp [relStr, str_data_append]
  | cons c cs ih =>
    show "/" ++ c ++ relStr (cs ++ [x]) = "/" ++ c ++ relStr cs ++ "/" ++ x
    rw [ih]
    apply str_ext
    simp [str_data_append, List.append_assoc]

theorem relStr_ne_nil (m : List String) (h : m ≠ []) : relStr m = "/" ++ relJoin m := by
  induction m with
  | nil => cases h rfl
  | cons x xs ih =>
    cases xs with
    | nil => apply str_ext; simp [relStr, relJoin, str_data_append]
    | cons y ys =>
      show "/" ++ x ++ relStr (y :: ys) = "/" ++ relJoin (x :: y :: ys)
      rw [ih (by simp)]
      show "/" ++ x ++ ("/" ++ relJoin (y :: ys)) = "/" ++ (x ++ "/" ++ relJoin (y :: ys))
      apply str_ext
      simp [str_data_append, List.append_assoc]

theorem relpath_concat (root : String) (l : List String) (name : String) :
    relpath (root ++ relStr l ++ "/" ++ name) root = relJoin (l ++ [name]) := by
  have hdata : (root ++ relStr l ++ "/" ++ name).data
      = root.data ++ '/' :: (relJoin (l ++ [name])).data := by
    have h1 : relStr (l ++ [name]) = "/" ++ relJoin (l ++ [name]) :=
      relStr_ne_nil _ (by simp)
    have h2 : relStr l ++ "/" ++ name = "/" ++ relJoin (l ++ [name]) := by
      rw [← relStr_snoc, h1]
    calc (root ++ relStr l ++ "/" ++ name).data
        = root.data ++ (relStr l ++ "/" ++ name).data := by
          simp [str_data_append, List.append_assoc]
      _ = root.data ++ ("/" ++ relJoin (l ++ [name])).data := by rw [h2]
      _ = root.data ++ '/' :: (relJoin (l ++ [name])).data := by
          simp [str_data_append]
  have hne : root ++ relStr l ++ "/" ++ name ≠ root := by
    intro h
    have h2 := congrArg (fun s : String => s.data.length) h
    simp only [hdata, List.length_append, List.length_cons] at h2
    omega
  unfold relpath
  rw [if_neg hne, hdata]
  have hdrop : (root.data ++ '/' :: (relJoin (l ++ [name])).data).drop (root.data.length + 1)
      = (relJoin (l ++ [name])).data := by
    rw [show root.data ++ '/' :: (relJoin (l ++ [name])).data
        = (root.data ++ ['/']) ++ (relJoin (l ++ [name])).data by simp]
    rw [show root.data.length + 1 = (root.data ++ ['/']).length by simp]
    exact List.drop_left _ _
  rw [hdrop, str_mk_data]

theorem relpath_root_file (root name : String) :
    relpath (root ++ "/" ++ name) root = name := by
  have h := relpath_concat root [] name
  simp only [relStr, str_append_empty, List.nil_append, relJoin] at h
  exact h

theorem strConcat_append (a b : List String) :
    strConcat (a ++ b) = strConcat a ++ strConcat b := by
  induction a with
  | nil => simp [strConcat, str_empty_append]
  | cons x xs ih => simp [strConcat, ih, str_append_assoc]

theorem root_relStr_snoc (root : String) (acc : List String) (x : String) :
    root ++ relStr acc ++ "/" ++ x = root ++ relStr (acc ++ [x]) := by
  apply str_ext
  simp only [relStr_snoc, str_data_append, List.append_assoc]

/-! Decomposition of the content pass: the walk emits exactly one block
per selected file, in order, and one diagnostic per unreadable selected
file. -/

theorem emitFiles_decomp (allow : List String) (pre post root : String) (acc : List String)
    (files : List FileEntry) :
    emitFiles allow pre post root (root ++ relStr acc) files =
      (strConcat ((files.filter fun f => (splitext f.name).2 ∈ allow).map
          fun f => blockFor pre post acc f),
       (files.filter fun f => (splitext f.name).2 ∈ allow).filterMap fun f => diagFor acc f) := by
  induction files with
  | nil => simp [emitFiles, strConcat]
  | cons f fs ih =>
    obtain ⟨nm, d⟩ := f
    by_cases h : (splitext nm).2 ∈ allow
    · cases d with
      | ok c =>
        simp [emitFiles, emitFile, blockFor, diagFor, relpath_concat, strConcat,
          List.filter_cons, h, ih]
      | error e =>
        simp [emitFiles, emitFile, blockFor, diagFor, relpath_concat, strConcat,
          List.filter_cons, h, ih]
    · have hskip : emitFiles allow pre post root (root ++ relStr acc) (⟨nm, d⟩ :: fs)
          = emitFiles allow pre post root (root ++ relStr acc) fs := by
        simp only [emitFiles]
        rw [if_neg h]
      rw [hskip, ih]
      simp [List.filter_cons, h]

mutual
theorem walkDir_decomp (allow : List String) (pre post root : String) :
    ∀ (acc : List String) (t : Dir),
      walkDir allow pre post root (root ++ relStr acc) t =
        (strConcat ((includedDir allow t).map fun pr => blockFor pre post (acc ++ pr.1) pr.2),
         (includedDir allow t).filterMap fun pr => diagFor (acc ++ pr.1) pr.2)
  | acc, .node n subs files => by
    have hsubs := walkDirs_decomp allow pre post root acc subs
    have hfiles := emitFiles_decomp allow pre post root acc files
    simp only [walkDir, includedDir, hsubs, hfiles, List.map_append, List.map_map,
      List.filterMap_append, List.filterMap_map, strConcat_append]
    simp [Function.comp_def]
theorem walkDirs_decomp (allow : List String) (pre post root : String) :
    ∀ (acc : List String) (ss : DirList),
      walkDirs allow pre post root (root ++ relStr acc) ss =
        (strConcat ((includedDirs allow ss).map fun pr => blockFor pre post (acc ++ pr.1) pr.2),
         (includedDirs allow ss).filterMap fun pr => diagFor (acc ++ pr.1) pr.2)
  | acc, .nil => by simp [walkDirs, includedDirs, strConcat]
  | acc, .cons s ss => by
    have htail := walkDirs_decomp allow pre post root acc ss
    by_cases hig : s.name ∈ IGNORE_DIRS
    · have hskip : walkDirs allow pre post root (root ++ relStr acc) (.cons s ss)
          = walkDirs allow pre post root (root ++ relStr acc) ss := by
        simp only [walkDirs]
        rw [if_pos hig]
      rw [hskip, htail]
      simp only [includedDirs]
      rw [if_pos hig]
      simp
    · have hhead := walkDir_decomp allow pre post root (acc ++ [s.name]) s
      have hstep : walkDirs allow pre post root (root ++ relStr acc) (.cons s ss)
          = (let a := walkDir allow pre post root (root ++ relStr acc ++ "/" ++ s.name) s
             let b := walkDirs allow pre post root (root ++ relStr acc) ss
             (a.1 ++ b.1, a.2 ++ b.2)) := by
        simp only [walkDirs]
        rw [if_neg hig]
      rw [hstep]
      simp only [root_relStr_snoc, hhead, htail]
      simp only [includedDirs]
      rw [if_neg hig]
      simp only [List.map_append, List.map_map, List.filterMap_append, List.filterMap_map,
        strConcat_append]
      simp [Function.comp_def, List.append_assoc]
end

/-- Shared corollary: `merge_code.py` writes exactly one block per
selected file and one diagnostic per unreadable selected file. -/
theorem merge_code_blocks (root : String) (t : Dir) :
    merge_code.merge_files root t =
      (strConcat ((merge_code.included t).map fun pr => blockFor "\n" "\n" pr.1 pr.2),
       (merge_code.included t).filterMap fun pr => diagFor pr.1 pr.2) := by
  have h := walkDir_decomp merge_code.ALLOWED_EXTENSIONS "\n" "\n" root [] t
  simp only [relStr, str_append_empty, List.nil_append] at h
  exact h

/-- Shared corollary: the content pass of `mergecode.py` writes exactly
one block per selected file. -/
theorem mergecode_blocks (root : String) (t : Dir) :
    mergecode.merge_files root t =
      (mergecode.write_tree_structure root t ++
         strConcat ((mergecode.included t).map fun pr => blockFor "" "\n\n" pr.1 pr.2),
       (mergecode.included t).filterMap fun pr => diagFor pr.1 pr.2) := by
  have h := walkDir_decomp mergecode.ALLOWED_EXTENSIONS "" "\n\n" root [] t
  simp only [relStr, str_append_empty, List.nil_append] at h
  simp only [mergecode.merge_files, mergecode.included, h]

mutual
/-- The pruned, extension-filtered walk selects exactly the files whose
extension is allowed and whose directory chain avoids `IGNORE_DIRS`. -/
theorem includedDir_eq_filter (allow : List String) :
    ∀ t : Dir, includedDir allow t =
      (allFilesDir t).filter fun pr =>
        decide ((splitext pr.2.name).2 ∈ allow) && pr.1.all fun c => decide (c ∉ IGNORE_DIRS)
  | .node n subs files => by
    have hsubs := includedDirs_eq_filter allow subs
    simp only [includedDir, allFilesDir, hsubs, List.filter_append, List.filter_map]
    simp [Function.comp_def]
theorem includedDirs_eq_filter (allow : List String) :
    ∀ ss : DirList, includedDirs allow ss =
      (allFilesDirs ss).filter fun pr =>
        decide ((splitext pr.2.name).2 ∈ allow) && pr.1.all fun c => decide (c ∉ IGNORE_DIRS)
  | .nil => by simp [includedDirs, allFilesDirs]
  | .cons s ss => by
    have hhead := includedDir_eq_filter allow s
    have htail := includedDirs_eq_filter allow ss
    by_cases hig : s.name ∈ IGNORE_DIRS
    · simp only [includedDirs, allFilesDirs]
      rw [if_pos hig, htail]
      simp [List.filter_append, List.filter_map, Function.comp_def, hig]
    · simp only [includedDirs, allFilesDirs]
      rw [if_neg hig, htail, hhead]
      simp [List.filter_append, List.filter_map, Function.comp_def, hig]
end

mutual
/-- The pruned walk visits exactly the directories whose relative
component chain avoids `IGNORE_DIRS`. -/
theorem visitedDir_eq_filter :
    ∀ t : Dir, (visitedDir t).map Prod.fst =
      (allDirsDir t).filter fun l => l.all fun c => decide (c ∉ IGNORE_DIRS)
  | .node n subs files => by
    have hsubs := visitedDirs_eq_filter subs
    simp only [visitedDir, allDirsDir, List.map_cons, List.filter_cons, hsubs]
    simp
theorem visitedDirs_eq_filter :
    ∀ ss : DirList, (visitedDirs ss).map Prod.fst =
      (allDirsDirs ss).filter fun l => l.all fun c => decide (c ∉ IGNORE_DIRS)
  | .nil => by simp [visitedDirs, allDirsDirs]
  | .cons s ss => by
    have hhead := visitedDir_eq_filter s
    have htail := visitedDirs_eq_filter ss
    by_cases hig : s.name ∈ IGNORE_DIRS
    · simp only [visitedDirs, allDirsDirs]
      rw [if_pos hig]
      simp only [List.nil_append]
      rw [htail]
      simp [List.filter_append, List.filter_map, Function.comp_def, hig]
    · simp only [visitedDirs, allDirsDirs]
      rw [if_neg hig]
      simp only [List.map_append, List.map_map]
      rw [htail]
      have h2 : List.map (Prod.fst ∘ fun pr : List String × Dir => (s.name :: pr.1, pr.2)) (visitedDir s)
          = List.map (fun l => s.name :: l) (List.map Prod.fst (visitedDir s)) := by
        simp [List.map_map, Function.comp_def]
      rw [h2, hhead]
      simp [List.filter_append, List.filter_map, Function.comp_def, hig]
end

mutual
/-- The structure pass writes exactly one group of lines per visited
directory, in visit order. -/
theorem structDir_decomp (allow : List String) (root : String) :
    ∀ (acc : List String) (t : Dir),
      structDir allow root (root ++ relStr acc) t =
        strConcat ((visitedDir t).map fun pr => dirLines allow root (acc ++ pr.1) pr.2.files)
  | acc, .node n subs files => by
    have hsubs := structDirs_decomp allow root acc subs
    simp only [structDir, visitedDir, List.map_cons, strConcat, hsubs, dirLines, Dir.files,
      List.append_nil]
theorem structDirs_decomp (allow : List String) (root : String) :
    ∀ (acc : List String) (ss : DirList),
      structDirs allow root (root ++ relStr acc) ss =
        strConcat ((visitedDirs ss).map fun pr => dirLines allow root (acc ++ pr.1) pr.2.files)
  | acc, .nil => by simp [structDirs, visitedDirs, strConcat]
  | acc, .cons s ss => by
    have htail := structDirs_decomp allow root acc ss
    by_cases hig : s.name ∈ IGNORE_DIRS
    · simp only [structDirs]
      rw [if_pos hig, htail]
      simp only [visitedDirs]
      rw [if_pos hig]
      simp [str_empty_append]
    · have hhead := structDir_decomp allow root (acc ++ [s.name]) s
      simp only [structDirs]
      rw [if_neg hig, root_relStr_snoc, hhead, htail]
      simp only [visitedDirs]
      rw [if_neg hig]
      simp only [List.map_append, List.map_map, strConcat_append]
      simp [Function.comp_def, List.append_assoc]
end

/-- Shared corollary: the structure section is the fixed banner, one
group of lines per visited directory, and the two blank lines. -/
theorem write_tree_decomp (root : String) (t : Dir) :
    mergecode.write_tree_structure root t =
      "PROJECT STRUCTURE:\n" ++ "==================\n" ++
        strConcat ((visitedDir t).map fun pr =>
          dirLines mergecode.ALLOWED_EXTENSIONS root pr.1 pr.2.files) ++ "\n\n" := by
  have h := structDir_decomp mergecode.ALLOWED_EXTENSIONS root [] t
  simp only [relStr, str_append_empty, List.nil_append] at h
  simp only [mergecode.write_tree_structure, h]

theorem cleanDir_name (allow : List String) (t : Dir) : (cleanDir allow t).name = t.name := by
  cases t; rfl

theorem emitFiles_clean (allow : List String) (pre post root dirpath : String)
    (files : List FileEntry) :
    emitFiles allow pre post root dirpath (files.filter fun f => (splitext f.name).2 ∈ allow)
      = emitFiles allow pre post root dirpath files := by
  induction files with
  | nil => rfl
  | cons f fs ih =>
    by_cases h : (splitext f.name).2 ∈ allow
    · have hf : (f :: fs).filter (fun f => decide ((splitext f.name).2 ∈ allow))
          = f :: fs.filter (fun f => decide ((splitext f.name).2 ∈ allow)) := by
        simp [List.filter_cons, h]
      rw [hf]
      simp only [emitFiles]
      rw [if_pos h, if_pos h, ih]
    · have hf : (f :: fs).filter (fun f => decide ((splitext f.name).2 ∈ allow))
          = fs.filter (fun f => decide ((splitext f.name).2 ∈ allow)) := by
        simp [List.filter_cons, h]
      rw [hf, ih]
      have hstep : emitFiles allow pre post root dirpath (f :: fs)
          = emitFiles allow pre post root dirpath fs := by
        simp only [emitFiles]
        rw [if_neg h]
      rw [hstep]

theorem structFiles_clean (allow : List String) (subindent : String) (files : List FileEntry) :
    structFiles allow subindent (files.filter fun f => (splitext f.name).2 ∈ allow)
      = structFiles allow subindent files := by
  induction files with
  | nil => rfl
  | cons f fs ih =>
    by_cases h : (splitext f.name).2 ∈ allow
    · have hf : (f :: fs).filter (fun f => decide ((splitext f.name).2 ∈ allow))
          = f :: fs.filter (fun f => decide ((splitext f.name).2 ∈ allow)) := by
        simp [List.filter_cons, h]
      rw [hf]
      simp only [structFiles]
      rw [ih]
    · have hf : (f :: fs).filter (fun f => decide ((splitext f.name).2 ∈ allow))
          = fs.filter (fun f => decide ((splitext f.name).2 ∈ allow)) := by
        simp [List.filter_cons, h]
      rw [hf, ih]
      simp only [structFiles]
      rw [if_neg h]
      simp [str_empty_append]

mutual
/-- Removing excluded files and ignored directories does not change the
content pass. -/
theorem walkDir_clean (allow : List String) (pre post root : String) :
    ∀ (dirpath : String) (t : Dir),
      walkDir allow pre post root dirpath (cleanDir allow t)
        = walkDir allow pre post root dirpath t
  | dirpath, .node n subs files => by
    have hsubs := walkDirs_clean allow pre post root dirpath subs
    simp only [cleanDir, walkDir, emitFiles_clean, hsubs]
theorem walkDirs_clean (allow : List String) (pre post root : String) :
    ∀ (dirpath : String) (ss : DirList),
      walkDirs allow pre post root dirpath (cleanDirs allow ss)
        = walkDirs allow pre post root dirpath ss
  | dirpath, .nil => rfl
  | dirpath, .cons s ss => by
    have htail := walkDirs_clean allow pre post root dirpath ss
    by_cases hig : s.name ∈ IGNORE_DIRS
    · simp only [cleanDirs]
      rw [if_pos hig, htail]
      have hstep : walkDirs allow pre post root dirpath (.cons s ss)
          = walkDirs allow pre post root dirpath ss := by
        simp only [walkDirs]
        rw [if_pos hig]
      rw [hstep]
    · have hhead := walkDir_clean allow pre post root (dirpath ++ "/" ++ s.name) s
      simp only [cleanDirs]
      rw [if_neg hig]
      simp only [walkDirs, cleanDir_name]
      rw [if_neg hig, if_neg hig, hhead, htail]
end

mutual
/-- Removing excluded files and ignored directories does not change the
structure pass. -/
theorem structDir_clean (allow : List String) (root : String) :
    ∀ (dirpath : String) (t : Dir),
      structDir allow root dirpath (cleanDir allow t) = structDir allow root dirpath t
  | dirpath, .node n subs files => by
    have hsubs := structDirs_clean allow root dirpath subs
    simp only [cleanDir, structDir, structFiles_clean, hsubs]
theorem structDirs_clean (allow : List String) (root : String) :
    ∀ (dirpath : String) (ss : DirList),
      structDirs allow root dirpath (cleanDirs allow ss) = structDirs allow root dirpath ss
  | dirpath, .nil => rfl
  | dirpath, .cons s ss => by
    have htail := structDirs_clean allow root dirpath ss
    by_cases hig : s.name ∈ IGNORE_DIRS
    · simp only [cleanDirs]
      rw [if_pos hig, htail]
      have hstep : structDirs allow root dirpath (.cons s ss)
          = structDirs allow root dirpath ss := by
        simp only [structDirs]
        rw [if_pos hig]
        exact str_empty_append _
      rw [hstep]
    · have hhead := structDir_clean allow root (dirpath ++ "/" ++ s.name) s
      simp only [cleanDirs]
      rw [if_neg hig]
      simp only [structDirs, cleanDir_name]
      rw [if_neg hig, if_neg hig, hhead, htail]
end

theorem isPrefixOf_append_self (p s : List Char) : p.isPrefixOf (p ++ s) = true := by
  induction p with
  | nil =>
    rw [List.nil_append]
    cases s <;> rfl
  | cons c cs ih => simp [List.isPrefixOf, ih]

theorem eraseAllFuel_of_not_occurs (pat : List Char) :
    ∀ (s : List Char) (n : Nat), occursIn pat s = false → s.length ≤ n →
      eraseAllFuel pat n s = s
  | [], 0, _, _ => rfl
  | [], _ + 1, _, _ => rfl
  | c :: cs, 0, _, hlen => by simp at hlen
  | c :: cs, n + 1, hocc, hlen => by
    have hboth := hocc
    simp only [occursIn, Bool.or_eq_false_iff] at hboth
    obtain ⟨h1, h2⟩ := hboth
    rw [eraseAllFuel, if_neg]
    · rw [eraseAllFuel_of_not_occurs pat cs n h2 (by simpa using hlen)]
    · intro hcon
      rw [h1] at hcon
      exact absurd hcon.2 (by simp)

/-- When the pattern does not reoccur in the remainder, deleting all its
occurrences from `pat ++ s` strips exactly the leading `pat`. -/
theorem pyEraseAll_strip (pat s : String) (h : occursIn pat.data s.data = false) :
    pyEraseAll pat (pat ++ s) = s := by
  unfold pyEraseAll
  rw [str_data_append]
  cases hp : pat.data with
  | nil =>
    exfalso
    rw [hp] at h
    cases hs : s.data with
    | nil => rw [hs] at h; simp [occursIn, List.isPrefixOf] at h
    | cons c cs => rw [hs] at h; simp [occursIn, List.isPrefixOf] at h
  | cons c cs =>
    rw [hp] at h
    have h1 : (c :: cs) ++ s.data = c :: (cs ++ s.data) := rfl
    have h2 : ((c :: cs) ++ s.data).length = (cs ++ s.data).length + 1 := by simp
    rw [h2, h1, eraseAllFuel, if_pos]
    · have hdrop : (c :: (cs ++ s.data)).drop (c :: cs).length = s.data :=
        List.drop_left (c :: cs) s.data
      rw [hdrop]
      rw [eraseAllFuel_of_not_occurs (c :: cs) s.data (cs ++ s.data).length h (by simp)]
    · exact ⟨by simp, isPrefixOf_append_self (c :: cs) s.data⟩

theorem extAux_none_iff : ∀ l : List Char, extAux l = none ↔ l.any (fun c => c = '.') = false
  | [] => by simp [extAux]
  | c :: cs => by
    have ih := extAux_none_iff cs
    cases he : extAux cs with
    | some e =>
      constructor
      · intro hcon
        rw [show extAux (c :: cs) = some e from by simp [extAux, he]] at hcon
        exact Option.noConfusion hcon
      · intro hany
        exfalso
        simp only [List.any_cons, Bool.or_eq_false_iff] at hany
        rw [ih.mpr hany.2] at he
        exact Option.noConfusion he
    | none =>
      have hcs : cs.any (fun c => c = '.') = false := ih.mp he
      by_cases hc : c = '.'
      · simp [extAux, he, hc, List.any_cons]
      · simp [extAux, he, hc, List.any_cons, hcs]

theorem extAux_append_dots :
    ∀ (pre rest : List Char), (∀ c ∈ pre, c = '.') → rest.any (fun c => c = '.') = true →
      extAux (pre ++ rest) = extAux rest
  | [], rest, _, _ => rfl
  | d :: pre, rest, hpre, hrest => by
    have ih := extAux_append_dots pre rest (fun c hc => hpre c (List.mem_cons_of_mem d hc)) hrest
    have hne : extAux rest ≠ none := by
      intro hcon
      rw [(extAux_none_iff rest).mp hcon] at hrest
      exact absurd hrest (by simp)
    cases he : extAux rest with
    | none => exact absurd he hne
    | some e =>
      simp only [List.cons_append, extAux, List.append_eq]
      rw [ih, he]

theorem takeWhile_all {p : Char → Bool} :
    ∀ l : List Char, (∀ c ∈ l, p c = true) → l.takeWhile p = l
  | [], _ => rfl
  | c :: cs, h => by
    have hc := h c (List.mem_cons_self c cs)
    have ih := takeWhile_all cs (fun x hx => h x (List.mem_cons_of_mem c hx))
    simp [List.takeWhile_cons, hc, ih]

/-- Characterisation of the extension computed by `splitext` on a bare
filename: it is the spec's last-dot suffix exactly when the name still
has a dot after its leading run of dots, and empty otherwise. -/
theorem splitext_snd_eq (name : String) (h : '/' ∉ name.data) :
    (splitext name).2 =
      (if (name.data.dropWhile (fun c => c = '.')).any (fun c => c = '.')
       then extLastDotSpec name else "") := by
  have hbase : (name.data.reverse.takeWhile (fun c => c ≠ '/')).reverse = name.data := by
    rw [takeWhile_all name.data.reverse
      (fun c hc => by simp; exact fun hcon => h (hcon ▸ List.mem_reverse.mp hc))]
    exact List.reverse_reverse _
  by_cases hany : (name.data.dropWhile (fun c => c = '.')).any (fun c => c = '.') = true
  · rw [if_pos hany]
    cases he : extAux (name.data.dropWhile (fun c => c = '.')) with
    | none =>
      exfalso
      rw [(extAux_none_iff _).mp he] at hany
      exact absurd hany (by simp)
    | some e =>
      have hsplit : (splitext name).2 = String.mk e := by
        simp only [splitext, hbase, he]
      have hdots : ∀ c ∈ name.data.takeWhile (fun c => c = '.'), c = '.' := by
        intro c hc
        have := List.mem_takeWhile_imp hc
        simpa using this
      have hfull : extAux name.data = some e := by
        calc extAux name.data
            = extAux (name.data.takeWhile (fun c => c = '.') ++
                name.data.dropWhile (fun c => c = '.')) := by
              rw [List.takeWhile_append_dropWhile]
          _ = extAux (name.data.dropWhile (fun c => c = '.')) :=
              extAux_append_dots _ _ hdots hany
          _ = some e := he
      rw [hsplit]
      simp only [extLastDotSpec, hfull]
  · rw [if_neg hany]
    have hnone : extAux (name.data.dropWhile (fun c => c = '.')) = none :=
      (extAux_none_iff _).mpr (by revert hany; cases (name.data.dropWhile (fun c => c = '.')).any (fun c => c = '.') <;> simp)
    simp only [splitext, hbase, hnone]

theorem emitFiles_append (allow : List String) (pre post root dirpath : String)
    (l1 l2 : List FileEntry) :
    emitFiles allow pre post root dirpath (l1 ++ l2) =
      ((emitFiles allow pre post root dirpath l1).1 ++ (emitFiles allow pre post root dirpath l2).1,
       (emitFiles allow pre post root dirpath l1).2 ++ (emitFiles allow pre post root dirpath l2).2) := by
  induction l1 with
  | nil => simp [emitFiles, str_empty_append]
  | cons f fs ih =>
    by_cases h : (splitext f.name).2 ∈ allow
    · simp only [List.cons_append, emitFiles, List.append_eq]
      rw [if_pos h, if_pos h, ih]
      simp [str_append_assoc, List.append_assoc]
    · simp only [List.cons_append, emitFiles, List.append_eq]
      rw [if_neg h, if_neg h, ih]

/-- Every file the walk selects has an allowed extension. -/
theorem includedDir_ext_allowed (allow : List String) (t : Dir) :
    (includedDir allow t).all (fun pr => (splitext pr.2.name).2 ∈ allow) = true := by
  rw [includedDir_eq_filter]
  apply List.all_eq_true.mpr
  intro pr hpr
  have hm := (List.mem_filter.mp hpr).2
  simp only [Bool.and_eq_true, decide_eq_true_eq] at hm
  simpa using hm.1

theorem structFiles_append (allow : List String) (subindent : String)
    (l1 l2 : List FileEntry) :
    structFiles allow subindent (l1 ++ l2)
      = structFiles allow subindent l1 ++ structFiles allow subindent l2 := by
  induction l1 with
  | nil => simp [structFiles, str_empty_append]
  | cons f fs ih =>
    simp only [List.cons_append, structFiles, List.append_eq, ih]
    apply str_ext
    simp [str_data_append, List.append_assoc]

/-! Claim theorems. -/

/-- C1: for every tree, the content pass of `merge_code.py` writes
exactly one `FILE` block per selected file in walk order and nothing for
any other file; a file is selected exactly when its extension is in the
allow-set and every directory component above it avoids the ignore-set;
and on the specification's scenario tree (`src/main.swift` = "A",
`Pods/Lib.swift` = "B", `build/out.h` = "C") both variants produce
exactly one block, for `src/main.swift`, containing "A". -/
theorem C1_selected_files_exactly_one_block :
    (∀ (root : String) (t : Dir),
      (merge_code.merge_files root t).1 =
        strConcat ((merge_code.included t).map fun pr => blockFor "\n" "\n" pr.1 pr.2))
    ∧ (∀ (allow : List String) (t : Dir),
        includedDir allow t = (allFilesDir t).filter fun pr =>
          decide ((splitext pr.2.name).2 ∈ allow) && pr.1.all fun c => decide (c ∉ IGNORE_DIRS))
    ∧ merge_code.merge_files "/proj" scenDir =
        ("\n" ++ separator ++ "\nFILE: src/main.swift\n" ++ separator ++ "\n\nA\n", [])
    ∧ mergecode.merge_files "/proj" scenDir =
        ("PROJECT STRUCTURE:\n==================\nproj/\n    src/\n        main.swift\n\n\n" ++
           separator ++ "\nFILE: src/main.swift\n" ++ separator ++ "\n\nA\n\n", []) := by
  refine ⟨fun root t => ?_, includedDir_eq_filter, by decide, by decide⟩
  rw [merge_code_blocks]

/-- C2: excluded files leave no trace: deleting from the tree every file
whose extension is not allowed and every subdirectory whose name is
ignored leaves the output of either variant unchanged, so neither the
name nor any part of the content of an excluded file can reach the
structure section or the content section. -/
theorem C2_excluded_files_leave_no_trace (root : String) (t : Dir) :
    merge_code.merge_files root (cleanDir merge_code.ALLOWED_EXTENSIONS t)
        = merge_code.merge_files root t
    ∧ mergecode.merge_files root (cleanDir mergecode.ALLOWED_EXTENSIONS t)
        = mergecode.merge_files root t := by
  constructor
  · exact walkDir_clean _ _ _ _ _ t
  · simp only [mergecode.merge_files, mergecode.write_tree_structure]
    rw [walkDir_clean, structDir_clean]

/-- C3 counterexample: for a root whose only file `bad.swift` is
unreadable, the run completes and emits the diagnostic, but the output
document consists exactly of the header block — two separator lines and
the line `FILE: bad.swift` — so the skipped file's header block is
present, not absent as the claim states: the script writes the header
before attempting to open the file. -/
theorem C3_counterexample :
    merge_code.merge_files "/r" c3dir =
      ("\n" ++ separator ++ "\nFILE: bad.swift\n" ++ separator ++ "\n\n",
       ["Could not read bad.swift: Permission denied"]) := by decide

/-- C3 amended: when a selected file cannot be read, a diagnostic naming
its relative path and the error is emitted, no contents are written for
it, and the run continues with the remaining files and subdirectories —
but the file's header block (separator lines and `FILE:` line) is still
written to the output, because the header precedes the `try:`. -/
theorem C3_amended (root n nm e : String) (subs : DirList) (fs1 fs2 : List FileEntry)
    (h : (splitext nm).2 ∈ merge_code.ALLOWED_EXTENSIONS) :
    merge_code.merge_files root (.node n subs (fs1 ++ ⟨nm, .error e⟩ :: fs2)) =
      ((emitFiles merge_code.ALLOWED_EXTENSIONS "\n" "\n" root root fs1).1 ++
         (("\n" ++ separator ++ "\n" ++ "FILE: " ++ nm ++ "\n" ++ separator ++ "\n\n") ++
           ((emitFiles merge_code.ALLOWED_EXTENSIONS "\n" "\n" root root fs2).1 ++
            (walkDirs merge_code.ALLOWED_EXTENSIONS "\n" "\n" root root subs).1)),
       (emitFiles merge_code.ALLOWED_EXTENSIONS "\n" "\n" root root fs1).2 ++
         (("Could not read " ++ nm ++ ": " ++ e) ::
           ((emitFiles merge_code.ALLOWED_EXTENSIONS "\n" "\n" root root fs2).2 ++
            (walkDirs merge_code.ALLOWED_EXTENSIONS "\n" "\n" root root subs).2))) := by
  simp only [merge_code.merge_files, walkDir]
  rw [emitFiles_append]
  have hbad : emitFiles merge_code.ALLOWED_EXTENSIONS "\n" "\n" root root
      (⟨nm, .error e⟩ :: fs2)
      = ((emitFile "\n" "\n" root root nm (.error e)).1 ++
          (emitFiles merge_code.ALLOWED_EXTENSIONS "\n" "\n" root root fs2).1,
         (emitFile "\n" "\n" root root nm (.error e)).2 ++
          (emitFiles merge_code.ALLOWED_EXTENSIONS "\n" "\n" root root fs2).2) := by
    simp only [emitFiles]
    rw [if_pos h]
  rw [hbad]
  have hfile : emitFile "\n" "\n" root root nm (Except.error e)
      = ("\n" ++ separator ++ "\n" ++ "FILE: " ++ nm ++ "\n" ++ separator ++ "\n\n" ++ "",
         ["Could not read " ++ nm ++ ": " ++ e]) := by
    simp only [emitFile, relpath_root_file]
  rw [hfile]
  simp only [Prod.mk.injEq]
  constructor
  · apply str_ext
    simp [str_data_append, List.append_assoc]
  · simp [List.append_assoc]

/-- C3 witness: the amended statement at a concrete unreadable root
file. -/
theorem C3_amended_witness :
    (splitext "bad.swift").2 ∈ merge_code.ALLOWED_EXTENSIONS ∧
    merge_code.merge_files "/r" (.node "r" .nil ([] ++ ⟨"bad.swift", .error "E"⟩ :: [])) =
      ((emitFiles merge_code.ALLOWED_EXTENSIONS "\n" "\n" "/r" "/r" []).1 ++
         (("\n" ++ separator ++ "\n" ++ "FILE: " ++ "bad.swift" ++ "\n" ++ separator ++ "\n\n") ++
           ((emitFiles merge_code.ALLOWED_EXTENSIONS "\n" "\n" "/r" "/r" []).1 ++
            (walkDirs merge_code.ALLOWED_EXTENSIONS "\n" "\n" "/r" "/r" .nil).1)),
       (emitFiles merge_code.ALLOWED_EXTENSIONS "\n" "\n" "/r" "/r" []).2 ++
         (("Could not read " ++ "bad.swift" ++ ": " ++ "E") ::
           ((emitFiles merge_code.ALLOWED_EXTENSIONS "\n" "\n" "/r" "/r" []).2 ++
            (walkDirs merge_code.ALLOWED_EXTENSIONS "\n" "\n" "/r" "/r" .nil).2))) :=
  ⟨by decide, C3_amended "/r" "r" "bad.swift" "E" .nil [] [] (by decide)⟩

/-- C4 counterexample: the filename `.swift` has a last dot, and the
spec's last-dot rule gives it extension `.swift`, yet the code computes
an empty extension for it (Python `splitext` skips leading dots), so a
file named exactly `.swift` is not included even though `.swift` is in
the allow-set: the run over a root containing only it produces empty
output. -/
theorem C4_counterexample :
    (splitext ".swift").2 = "" ∧ extLastDotSpec ".swift" = ".swift" ∧
    (splitext ".swift").2 ≠ ".swift" ∧
    merge_code.merge_files "/r" c4dir = ("", []) := by
  refine ⟨by decide, by decide, by decide, by decide⟩

/-- C4 amended: on a bare filename the computed extension is the
substring from the last `'.'` to the end of the name — except that dots
forming the leading run of the filename never begin an extension: when
every dot of the name is leading, the extension is empty.  Membership in
the allow-set is exact string equality, hence case-sensitive. -/
theorem C4_amended (name : String) (h : '/' ∉ name.data) :
    (splitext name).2 =
      (if (name.data.dropWhile (fun c => c = '.')).any (fun c => c = '.')
       then extLastDotSpec name else "") :=
  splitext_snd_eq name h

/-- C4 witness: the amended statement at `archive.tar.gz`. -/
theorem C4_amended_witness :
    '/' ∉ "archive.tar.gz".data ∧
    (splitext "archive.tar.gz").2 =
      (if ("archive.tar.gz".data.dropWhile (fun c => c = '.')).any (fun c => c = '.')
       then extLastDotSpec "archive.tar.gz" else "") :=
  ⟨by decide, C4_amended "archive.tar.gz" (by decide)⟩

/-- C5: the output of either variant is exactly the concatenation of one
block per selected file (after the structure section in the
structure-variant), each block being the separator line, `FILE:` with the
root-relative path, the separator line again, a blank line, then the
contents; the separator is exactly 50 `'='` characters; and the emitted
path is always the root-relative join of the components, never an
absolute path — in particular `"/root/a/b/c.swift"` relative to
`"/root"` is `"a/b/c.swift"`. -/
theorem C5_block_format :
    (∀ (root : String) (t : Dir),
      merge_code.merge_files root t =
        (strConcat ((merge_code.included t).map fun pr => blockFor "\n" "\n" pr.1 pr.2),
         (merge_code.included t).filterMap fun pr => diagFor pr.1 pr.2))
    ∧ (∀ (root : String) (t : Dir),
        mergecode.merge_files root t =
          (mergecode.write_tree_structure root t ++
             strConcat ((mergecode.included t).map fun pr => blockFor "" "\n\n" pr.1 pr.2),
           (mergecode.included t).filterMap fun pr => diagFor pr.1 pr.2))
    ∧ separator.data.length = 50
    ∧ separator.data.all (fun c => c = '=') = true
    ∧ relpath "/root/a/b/c.swift" "/root" = "a/b/c.swift"
    ∧ (∀ (root : String) (l : List String) (name : String),
        relpath (root ++ relStr l ++ "/" ++ name) root = relJoin (l ++ [name])) :=
  ⟨merge_code_blocks, mergecode_blocks, by decide, by decide, by decide, relpath_concat⟩

/-- C6 counterexample: with working directory `/r` and the tree
`/r/x/r`, the visited directory `/r/x/r` lies at depth 2, and stripping
the root prefix leaves `/x/r` with 2 separators — but the code computes
the level with `replace`, which also deletes the second occurrence of
`/r`, yielding `/x` with 1 separator, so the line for that directory is
indented 4 spaces instead of the claimed 8. -/
theorem C6_counterexample :
    mergecode.write_tree_structure "/r" c6dir =
      "PROJECT STRUCTURE:\n==================\nr/\n    x/\n    r/\n\n\n"
    ∧ pyEraseAll "/r" "/r/x/r" = "/x"
    ∧ stripRootSpec "/r" "/r/x/r" = "/x/r"
    ∧ pyCountSep (pyEraseAll "/r" "/r/x/r") = 1
    ∧ pyCountSep (stripRootSpec "/r" "/r/x/r") = 2 := by
  refine ⟨by decide, by decide, by decide, by decide, by decide⟩

/-- C6 amended: the structure pass writes, per visited directory in
visit order, its base name with a trailing `/` indented by 4 spaces times
the level, with each included file one further level deeper, and two
blank lines terminate the section — where the level is the separator
count of the path after deleting every occurrence of the root path
string, which agrees with the claim's strip-the-root-prefix count
whenever the root path does not reoccur in the relative part. -/
theorem C6_structure_lines_amended :
    (∀ (root : String) (t : Dir),
      mergecode.write_tree_structure root t =
        "PROJECT STRUCTURE:\n" ++ "==================\n" ++
          strConcat ((visitedDir t).map fun pr =>
            dirLines mergecode.ALLOWED_EXTENSIONS root pr.1 pr.2.files) ++ "\n\n")
    ∧ (∀ pat s : String, occursIn pat.data s.data = false →
        pyEraseAll pat (pat ++ s) = s) :=
  ⟨write_tree_decomp, pyEraseAll_strip⟩

/-- C6 witness: the amended level rule at a concrete root and relative
part. -/
theorem C6_amended_witness :
    occursIn "/r".data "/x".data = false ∧ pyEraseAll "/r" ("/r" ++ "/x") = "/x" :=
  ⟨by decide, C6_structure_lines_amended.2 "/r" "/x" (by decide)⟩

/-- C7: the walk visits exactly the directories all of whose relative
path components avoid the ignore-set — so a directory whose base name is
ignored is never visited and its whole subtree is skipped, matching by
exact name — and the structure section consists of exactly one group of
lines per visited directory. -/
theorem C7_ignored_dirs_never_visited :
    (∀ (root : String) (t : Dir),
      mergecode.write_tree_structure root t =
        "PROJECT STRUCTURE:\n" ++ "==================\n" ++
          strConcat ((visitedDir t).map fun pr =>
            dirLines mergecode.ALLOWED_EXTENSIONS root pr.1 pr.2.files) ++ "\n\n")
    ∧ (∀ t : Dir, (visitedDir t).map Prod.fst =
        (allDirsDir t).filter fun l => l.all fun c => decide (c ∉ IGNORE_DIRS)) :=
  ⟨write_tree_decomp, visitedDir_eq_filter⟩

/-- C8: inserting the output file `FullProjectSource.txt` (with any
contents) anywhere in the root's file listing changes nothing in the
output of either variant — its `.txt` extension is in neither allow-set —
so a second run over the tree left by a first run produces byte-identical
output. -/
theorem C8_second_run_byte_identical (root n c : String) (subs : DirList)
    (fs1 fs2 : List FileEntry) :
    merge_code.merge_files root
        (.node n subs (fs1 ++ ⟨merge_code.OUTPUT_FILE, .ok c⟩ :: fs2))
      = merge_code.merge_files root (.node n subs (fs1 ++ fs2))
    ∧ mergecode.merge_files root
        (.node n subs (fs1 ++ ⟨mergecode.OUTPUT_FILE, .ok c⟩ :: fs2))
      = mergecode.merge_files root (.node n subs (fs1 ++ fs2)) := by
  have hskipE1 : emitFiles merge_code.ALLOWED_EXTENSIONS "\n" "\n" root root
      (⟨merge_code.OUTPUT_FILE, Except.ok c⟩ :: fs2)
      = emitFiles merge_code.ALLOWED_EXTENSIONS "\n" "\n" root root fs2 := by
    simp only [emitFiles]
    rw [if_neg (by decide)]
  have hskipE2 : emitFiles mergecode.ALLOWED_EXTENSIONS "" "\n\n" root root
      (⟨mergecode.OUTPUT_FILE, Except.ok c⟩ :: fs2)
      = emitFiles mergecode.ALLOWED_EXTENSIONS "" "\n\n" root root fs2 := by
    simp only [emitFiles]
    rw [if_neg (by decide)]
  have hskipS : ∀ si, structFiles mergecode.ALLOWED_EXTENSIONS si
      (⟨mergecode.OUTPUT_FILE, Except.ok c⟩ :: fs2)
      = structFiles mergecode.ALLOWED_EXTENSIONS si fs2 := by
    intro si
    simp only [structFiles]
    rw [if_neg (by decide)]
    exact str_empty_append _
  constructor
  · simp only [merge_code.merge_files, walkDir]
    rw [emitFiles_append, emitFiles_append, hskipE1]
  · simp only [mergecode.merge_files, mergecode.write_tree_structure, structDir, walkDir]
    rw [emitFiles_append, emitFiles_append, hskipE2,
      structFiles_append, structFiles_append, hskipS]

/-- C9: the output file name `FullProjectSource.txt` has extension
`.txt`, which is in neither variant's allow-set, so although there is no
explicit self-inclusion guard, no selected file of any tree is ever named
`FullProjectSource.txt` — and the output is exactly the blocks of the
selected files. -/
theorem C9_output_file_never_selected :
    (splitext "FullProjectSource.txt").2 = ".txt"
    ∧ merge_code.ALLOWED_EXTENSIONS.contains ".txt" = false
    ∧ mergecode.ALLOWED_EXTENSIONS.contains ".txt" = false
    ∧ (∀ t : Dir, (merge_code.included t).all
        (fun pr => pr.2.name ≠ merge_code.OUTPUT_FILE) = true)
    ∧ (∀ t : Dir, (mergecode.included t).all
        (fun pr => pr.2.name ≠ mergecode.OUTPUT_FILE) = true)
    ∧ (∀ (root : String) (t : Dir),
        (merge_code.merge_files root t).1 =
          strConcat ((merge_code.included t).map fun pr => blockFor "\n" "\n" pr.1 pr.2)) := by
  refine ⟨by decide, by decide, by decide, fun t => ?_, fun t => ?_, fun root t => ?_⟩
  · apply List.all_eq_true.mpr
    intro pr hpr
    have hext := List.all_eq_true.mp
      (includedDir_ext_allowed merge_code.ALLOWED_EXTENSIONS t) pr hpr
    simp only [decide_eq_true_eq] at hext ⊢
    intro hname
    rw [hname] at hext
    exact absurd hext (by decide)
  · apply List.all_eq_true.mpr
    intro pr hpr
    have hext := List.all_eq_true.mp
      (includedDir_ext_allowed mergecode.ALLOWED_EXTENSIONS t) pr hpr
    simp only [decide_eq_true_eq] at hext ⊢
    intro hname
    rw [hname] at hext
    exact absurd hext (by decide)
  · rw [merge_code_blocks]

/-- C10: the ignore-set applies only to subdirectory names, never to the
root: neither walk consults the root directory's own name, the root is
always the first visited directory, and a root itself named `build`
still has its files listed and merged — while the same `build` directory
as a subdirectory is pruned entirely. -/
theorem C10_root_never_pruned :
    (∀ (root n m : String) (subs : DirList) (files : List FileEntry),
      merge_code.merge_files root (.node n subs files)
        = merge_code.merge_files root (.node m subs files))
    ∧ (∀ (root n m : String) (subs : DirList) (files : List FileEntry),
        mergecode.merge_files root (.node n subs files)
          = mergecode.merge_files root (.node m subs files))
    ∧ (∀ t : Dir, (visitedDir t).head? = some ([], t))
    ∧ merge_code.merge_files "/build" c10root =
        ("\n" ++ separator ++ "\nFILE: a.swift\n" ++ separator ++ "\n\nA\n", [])
    ∧ merge_code.merge_files "/r" c10nested = ("", [])
    ∧ mergecode.merge_files "/build" c10root =
        ("PROJECT STRUCTURE:\n==================\nbuild/\n    a.swift\n\n\n" ++
           separator ++ "\nFILE: a.swift\n" ++ separator ++ "\n\nA\n\n", []) := by
  refine ⟨fun root n m subs files => ?_, fun root n m subs files => ?_,
    fun t => ?_, by decide, by decide, by decide⟩
  · simp only [merge_code.merge_files, walkDir]
  · simp only [mergecode.merge_files, mergecode.write_tree_structure, structDir, walkDir]
  · cases t
    simp [visitedDir]
